import Mathlib

/-!
Shallow embedding of the PCPartPicker scraper (src/scraper.py) and of the
trivial record-count utility (src/get_total.py is excluded as plumbing).

HTML retrieval and BeautifulSoup parsing are abstracted away: a page of a
category is modelled by the three flat element-text sequences the code
extracts from it (specification values, row names, row price texts), and an
endpoint's first response is modelled by its HTTP ok flag, the text of the
last pagination list item, and the DOM-walk-order specification labels.
Everything downstream of those extractions is translated directly from the
Python source.  Python list indexing that can raise IndexError is modelled
with Option; the run-aborting assert in Scraper._scrape is modelled with an
error field in the run result.
-/

namespace PCScraper

/-- A JSON value stored in a record field: Python None or an extracted text. -/
inductive JVal where
  | jnull : JVal
  | jstr : String → JVal
  deriving DecidableEq, Repr

/-- A Python dict with string keys, as an insertion-ordered association list
(Python 3.7+ dicts preserve insertion order, which json.dumps follows). -/
abbrev Record := List (String × JVal)

/-- Scraper._json_safe: lambda text: text.lower().replace(" ", "_"). -/
def json_safe (s : String) : String := (s.toLower).replace " " "_"

/-- Scraper._unescape: lambda text: text.replace("\\", ""). -/
def unescape (s : String) : String := s.replace "\x5c" ""

/-- The stepping of Scraper._chunker, with a structural fuel argument: one
slice seq[0:size] per step, then continue on seq[size:].  With a positive
size the fuel never runs out when it starts at the sequence length. -/
def chunkerAux {α : Type} (size : Nat) : List α → Nat → List (List α)
  | _, 0 => []
  | seq, fuel + 1 =>
    if seq.length = 0 then []
    else seq.take size :: chunkerAux size (seq.drop size) fuel

/-- Scraper._chunker: lambda seq, size: (seq[pos:pos + size] for pos in
range(0, len(seq), size)).  For size = 0 Python's range raises ValueError;
the claims only use a positive size, and we return [] there. -/
def chunker {α : Type} (seq : List α) (size : Nat) : List (List α) :=
  if size = 0 then [] else chunkerAux size seq seq.length

/-- Python dict insertion d[k] = v: an existing key keeps its position and
gets the new value; a new key is appended at the end. -/
def dictInsert (d : Record) (k : String) (v : JVal) : Record :=
  if d.any (fun p => p.1 == k) then
    d.map (fun p => if p.1 == k then (k, v) else p)
  else d ++ [(k, v)]

/-- dict(zip(ks, vs)): insert the zipped pairs in order into an empty dict;
zip truncates to the shorter of the two sequences. -/
def dictOfZip (ks : List String) (vs : List String) : Record :=
  (ks.zip vs).foldl (fun d kv => dictInsert d kv.1 (JVal.jstr kv.2)) []

/-- The text content the code extracts from one listing page:
values  = [l.find_next_sibling(text=True) for l in bs4.find_all("h6", class_="specLabel")],
names   = [w.find("p").string for w in bs4.find_all(class_="td__nameWrapper")],
prices  = [w.find(text=True) for w in bs4.find_all(class_="td__price")]. -/
structure PageData where
  values : List String
  names : List String
  prices : List String
  deriving DecidableEq, Repr

/-- One step of the merge loop in Scraper._scrape:
price = prices[i] if prices[i] != "Add" else None;
item.update({"name": names[i], "price": price}).
Indexing names/prices out of range raises IndexError, modelled as none. -/
def mergeRow (pd : PageData) (i : Nat) (item : Record) : Option Record :=
  match pd.prices.get? i, pd.names.get? i with
  | some pr, some nm =>
      some (dictInsert (dictInsert item "name" (JVal.jstr nm)) "price"
        (if pr = "Add" then JVal.jnull else JVal.jstr pr))
  | _, _ => none

/-- The loop for i, item in enumerate(page_items), starting at index i. -/
def mergeItems (pd : PageData) : Nat → List Record → Option (List Record)
  | _, [] => some []
  | i, item :: rest =>
    match mergeRow pd i item, mergeItems pd (i + 1) rest with
    | some r, some rs => some (r :: rs)
    | _, _ => none

/-- The per-page body of Scraper._scrape: chunk the flat value sequence by
the attribute count, build a partial dict per chunk via dict(zip(..)), then
merge name and price into each item by row index. -/
def scrapePage (cats : List String) (pd : PageData) : Option (List Record) :=
  mergeItems pd 0 ((chunker pd.values cats.length).map (fun g => dictOfZip cats g))

/-- A scrape-queue entry as built by Scraper._create_scrape_queue:
{"url": url, "categories": [...], "page_count": int(page_count)}. -/
structure QueueEntry where
  url : String
  categories : List String
  page_count : Nat
  deriving DecidableEq, Repr

/-- What the code reads off an endpoint's validation response: req.ok, the
string of the last li of the pagination ul, and the specLabel texts in the
order of the find_all_previous walk. -/
structure EndpointResponse where
  ok : Bool
  last_li_text : String
  spec_labels : List String

/-- The categories list of a queue entry: normalize each walked label with
_json_safe, then [c for c in reversed(categories)]. -/
def deriveCategories (labels : List String) : List String :=
  (labels.map json_safe).reverse

/-- Python int() on the pagination text, modelled for the nonnegative
decimal form the page provides: all-digit nonempty text parses, anything
else raises ValueError (none). -/
def pyInt (s : String) : Option Nat :=
  if s.toList ≠ [] ∧ s.toList.all Char.isDigit then
    some (s.toList.foldl (fun n c => n * 10 + (c.toNat - '0'.toNat)) 0)
  else none

/-- The entry appended for a validated url (its page-count parse failure
aborts the build, see create_scrape_queue). -/
def mkEntry (url : String) (r : EndpointResponse) : QueueEntry :=
  { url := url
    categories := deriveCategories r.spec_labels
    page_count := (pyInt r.last_li_text).getD 0 }

/-- Scraper._create_scrape_queue over the absolute endpoint urls: skip a url
whose GET is not ok, otherwise parse the page count (a non-numeric text
raises ValueError and aborts the build: none) and append an entry. -/
def create_scrape_queue (respond : String → EndpointResponse) :
    List String → Option (List QueueEntry)
  | [] => some []
  | url :: rest =>
    if (respond url).ok then
      match pyInt (respond url).last_li_text with
      | none => none
      | some _ =>
        (create_scrape_queue respond rest).map (fun q => mkEntry url (respond url) :: q)
    else create_scrape_queue respond rest

/-- str.split("/") on a character list (Python semantics for a one-character
separator: empty fragments are kept, the result is never empty). -/
def splitChars : List Char → List (List Char)
  | [] => [[]]
  | c :: rest =>
    match splitChars rest with
    | [] => [[]]
    | g :: gs => if c = '/' then [] :: g :: gs else (c :: g) :: gs

/-- Scraper._BASE_URL. -/
def BASE_URL : String := "https://pcpartpicker.com/products"

/-- The absolute endpoint built in __init__: _BASE_URL + e + "/fetch". -/
def absEndpoint (e : String) : String := BASE_URL ++ e ++ "/fetch"

/-- file_name = scrapee["url"][8:].split("/")[-2] + ".json".  The negative
index raises IndexError when fewer than two fragments exist (none here). -/
def fileNameOf (url : String) : Option String :=
  if 2 ≤ (splitChars (url.toList.drop 8)).length then
    ((splitChars (url.toList.drop 8)).get?
        ((splitChars (url.toList.drop 8)).length - 2)).map
      (fun cs => String.mk cs ++ ".json")
  else none

/-- json.dumps string escaping of one character.  The syntactic escapes of
the JSON encoder are modelled (quote, backslash, and the common control
characters); the \uXXXX ASCII-escaping of other non-printable or non-ASCII
characters is not modelled. -/
def escapeChar (c : Char) : List Char :=
  if c = '"' then ['\x5c', '"']
  else if c = '\x5c' then ['\x5c', '\x5c']
  else if c = '\n' then ['\x5c', 'n']
  else if c = '\t' then ['\x5c', 't']
  else if c = '\r' then ['\x5c', 'r']
  else if c = '\x08' then ['\x5c', 'b']
  else if c = '\x0c' then ['\x5c', 'f']
  else [c]

/-- The escaped body of a JSON string literal. -/
def escBody (l : List Char) : List Char :=
  l.foldr (fun c acc => escapeChar c ++ acc) []

/-- A quoted JSON string literal for s. -/
def encodeString (s : String) : List Char :=
  '"' :: escBody s.toList ++ ['"']

/-- json.dumps of one record field value. -/
def dumpVal : JVal → List Char
  | JVal.jnull => ['n', 'u', 'l', 'l']
  | JVal.jstr s => encodeString s

/-- json.dumps of one object member: "key": value. -/
def dumpMember (kv : String × JVal) : List Char :=
  encodeString kv.1 ++ ':' :: ' ' :: dumpVal kv.2

/-- Join with the default json.dumps item separator ", ". -/
def joinSep : List (List Char) → List Char
  | [] => []
  | [x] => x
  | x :: y :: xs => x ++ ',' :: ' ' :: joinSep (y :: xs)

/-- json.dumps of one record (a Python dict in insertion order). -/
def dumpObj (r : Record) : List Char :=
  '{' :: joinSep (r.map dumpMember) ++ ['}']

/-- json_out = json.dumps(items) on the accumulated record list. -/
def dumps (items : List Record) : String :=
  String.mk ('[' :: joinSep (items.map dumpObj) ++ [']'])

/-- json.loads inverse of escapeChar: the character named by an escape. -/
def unescCh (c : Char) : Option Char :=
  if c = '"' then some '"'
  else if c = '\x5c' then some '\x5c'
  else if c = '/' then some '/'
  else if c = 'n' then some '\n'
  else if c = 't' then some '\t'
  else if c = 'r' then some '\r'
  else if c = 'b' then some '\x08'
  else if c = 'f' then some '\x0c'
  else none

/-- Read a JSON string body up to its closing quote (the opening quote has
already been consumed); returns the decoded characters and the rest. -/
def readStrBody : List Char → Option (List Char × List Char)
  | [] => none
  | c :: rest =>
    if c = '"' then some ([], rest)
    else if c = '\x5c' then
      match rest with
      | [] => none
      | e :: rest₂ =>
        match unescCh e, readStrBody rest₂ with
        | some u, some (s, r) => some (u :: s, r)
        | _, _ => none
    else
      match readStrBody rest with
      | some (s, r) => some (c :: s, r)
      | none => none

/-- Read one JSON value of the output's schema: null or a string. -/
def readVal (cs : List Char) : Option (JVal × List Char) :=
  match cs with
  | [] => none
  | c :: rest =>
    if c = '"' then
      match readStrBody rest with
      | some (s, r) => some (JVal.jstr (String.mk s), r)
      | none => none
    else if c = 'n' then
      match rest with
      | u :: l₁ :: l₂ :: rest₂ =>
        if u = 'u' && l₁ = 'l' && l₂ = 'l' then some (JVal.jnull, rest₂) else none
      | _ => none
    else none

/-- Read the members of a nonempty object up to and including the closing
brace, with the exact separators json.dumps emits. -/
def readMembers : Nat → List Char → Option (Record × List Char)
  | 0, _ => none
  | _ + 1, [] => none
  | fuel + 1, c :: cs₁ =>
    if c = '"' then
      match readStrBody cs₁ with
      | none => none
      | some (k, cs₂) =>
        match cs₂ with
        | c₁ :: c₂ :: cs₃ =>
          if c₁ = ':' && c₂ = ' ' then
            match readVal cs₃ with
            | none => none
            | some (v, cs₄) =>
              match cs₄ with
              | [] => none
              | d :: cs₅ =>
                if d = '}' then some ([(String.mk k, v)], cs₅)
                else
                  match cs₅ with
                  | [] => none
                  | e :: cs₆ =>
                    if d = ',' && e = ' ' then
                      match readMembers fuel cs₆ with
                      | none => none
                      | some (r, cs₇) => some ((String.mk k, v) :: r, cs₇)
                    else none
          else none
        | _ => none
    else none

/-- Read one object. -/
def readObj (fuel : Nat) (cs : List Char) : Option (Record × List Char) :=
  match cs with
  | [] => none
  | c :: rest =>
    if c = '{' then
      match rest with
      | [] => none
      | d :: rest₂ => if d = '}' then some ([], rest₂) else readMembers fuel rest
    else none

/-- Read the elements of a nonempty array up to and including the closing
bracket. -/
def readItems : Nat → List Char → Option (List Record × List Char)
  | 0, _ => none
  | fuel + 1, cs =>
    match readObj fuel cs with
    | none => none
    | some (r, cs₂) =>
      match cs₂ with
      | [] => none
      | d :: cs₃ =>
        if d = ']' then some ([r], cs₃)
        else
          match cs₃ with
          | [] => none
          | e :: cs₄ =>
            if d = ',' && e = ' ' then
              match readItems fuel cs₄ with
              | none => none
              | some (l, cs₅) => some (r :: l, cs₅)
            else none

/-- json.loads on a serialized record list: the document must be an array of
flat objects with string-or-null values, with nothing after it. -/
def loads (s : String) : Option (List Record) :=
  match s.toList with
  | [] => none
  | c :: rest =>
    if c = '[' then
      match rest with
      | [] => none
      | d :: rest₂ =>
        if d = ']' then (if rest₂ = [] then some [] else none)
        else
          match readItems s.toList.length rest with
          | some (l, []) => some l
          | _ => none
    else none

/-- The per-category iteration of Scraper._scrape: pages 1..page_count, each
page's rows appended to the accumulator (items += page_items). -/
def scrapeCategory (e : QueueEntry) (site : Nat → PageData) : Option (List Record) :=
  (List.range e.page_count).foldlM
    (fun acc i =>
      match scrapePage e.categories (site (i + 1)) with
      | none => none
      | some pg => some (acc ++ pg))
    []

/-- One category's turn in Scraper._scrape: scrape all its pages, then write
json.dumps(items) to os.path.join(output_dir, file_name).  The returned pair
is (file path, file content); none models the IndexError aborts. -/
def scrapeEntry (dir : String) (site : String → Nat → PageData) (e : QueueEntry) :
    Option (String × String) :=
  match scrapeCategory e (site e.url), fileNameOf e.url with
  | some items, some name => some (dir ++ "/" ++ name, dumps items)
  | _, _ => none

/-- The observable outcome of Scraper._scrape: the files written, in order,
and the error that aborted the run, if any.  Files written before an abort
are kept, as in the Python loop. -/
structure RunResult where
  writes : List (String × String)
  error : Option String
  deriving DecidableEq, Repr

/-- The message of the assert at the top of Scraper._scrape. -/
def assertMsg : String :=
  "Scrape queue does not exist. Have any valid endpoints been specified?"

/-- The loop of Scraper._scrape over the queue entries. -/
def scrapeGo (dir : String) (site : String → Nat → PageData) :
    List QueueEntry → RunResult
  | [] => { writes := [], error := none }
  | e :: rest =>
    match scrapeEntry dir site e with
    | none => { writes := [], error := some "list index out of range" }
    | some w =>
      { writes := w :: (scrapeGo dir site rest).writes
        error := (scrapeGo dir site rest).error }

/-- Scraper._scrape: assert the queue is truthy (None and [] both fail the
assert and abort with assertMsg before any page is fetched or any file is
written), then process the entries in order. -/
def scrape (queue : Option (List QueueEntry)) (dir : String)
    (site : String → Nat → PageData) : RunResult :=
  match queue with
  | none => { writes := [], error := some assertMsg }
  | some [] => { writes := [], error := some assertMsg }
  | some (e :: rest) => scrapeGo dir site (e :: rest)

/-! ### Basic lemmas about the embedded operations -/

theorem chunkerAux_length {α : Type} (size : Nat) (hsz : 0 < size) :
    ∀ (fuel : Nat) (seq : List α), seq.length ≤ fuel →
      (chunkerAux size seq fuel).length = (seq.length + size - 1) / size := by
  intro fuel
  induction fuel with
  | zero =>
    intro seq hle
    have h0 : seq.length = 0 := Nat.le_zero.mp hle
    simp only [chunkerAux, List.length_nil, h0, Nat.zero_add]
    exact (Nat.div_eq_of_lt (by omega)).symm
  | succ n ih =>
    intro seq hle
    by_cases h0 : seq.length = 0
    · simp only [chunkerAux, if_pos h0, List.length_nil, h0, Nat.zero_add]
      exact (Nat.div_eq_of_lt (by omega)).symm
    · simp only [chunkerAux, if_neg h0, List.length_cons]
      rw [ih (seq.drop size) (by simp only [List.length_drop]; omega)]
      simp only [List.length_drop]
      by_cases hlt : size < seq.length
      · have heq : seq.length + size - 1 = (seq.length - size + size - 1) + size := by omega
        rw [heq, Nat.add_div_right _ hsz]
      · have hz : seq.length - size = 0 := by omega
        rw [hz]
        have h1 : 0 + size - 1 < size := by omega
        have h2 : seq.length + size - 1 = (seq.length - 1) + size := by omega
        rw [Nat.div_eq_of_lt h1, h2, Nat.add_div_right _ hsz,
          Nat.div_eq_of_lt (by omega : seq.length - 1 < size)]

theorem chunker_length {α : Type} (seq : List α) (size : Nat) (hsz : 0 < size) :
    (chunker seq size).length = (seq.length + size - 1) / size := by
  unfold chunker
  rw [if_neg (by omega : ¬ size = 0)]
  exact chunkerAux_length size hsz seq.length seq (Nat.le_refl _)

theorem mergeItems_length (pd : PageData) :
    ∀ (l : List Record) (i : Nat) (out : List Record),
      mergeItems pd i l = some out → out.length = l.length := by
  intro l
  induction l with
  | nil =>
    intro i out h
    simp only [mergeItems, Option.some.injEq] at h
    simp [← h]
  | cons a rest ih =>
    intro i out h
    simp only [mergeItems] at h
    cases hm : mergeRow pd i a with
    | none => rw [hm] at h; exact absurd h (by simp)
    | some r =>
      rw [hm] at h
      cases hms : mergeItems pd (i + 1) rest with
      | none => rw [hms] at h; exact absurd h (by simp)
      | some rs =>
        rw [hms] at h
        simp only [Option.some.injEq] at h
        rw [← h, List.length_cons, List.length_cons, ih _ _ hms]

theorem get?_isSome_iff {α : Type} (l : List α) (n : Nat) :
    (l.get? n).isSome = true ↔ n < l.length := by
  constructor
  · intro h
    by_contra hc
    push_neg at hc
    rw [List.get?_eq_none.mpr hc] at h
    simp at h
  · intro h
    rw [List.get?_eq_get h]
    simp

theorem mergeRow_isSome (pd : PageData) (i : Nat) (item : Record) :
    (mergeRow pd i item).isSome = true ↔ i < pd.names.length ∧ i < pd.prices.length := by
  unfold mergeRow
  cases hp : pd.prices.get? i with
  | none =>
    have hnp : ¬ i < pd.prices.length := by
      have := List.get?_eq_none.mp hp
      omega
    simp [hnp]
  | some pr =>
    have hplt : i < pd.prices.length := by
      have := (get?_isSome_iff pd.prices i).mp (by rw [hp]; rfl)
      exact this
    cases hn : pd.names.get? i with
    | none =>
      have hnn : ¬ i < pd.names.length := by
        have := List.get?_eq_none.mp hn
        omega
      simp [hnn]
    | some nm =>
      have hnlt : i < pd.names.length := (get?_isSome_iff pd.names i).mp (by rw [hn]; rfl)
      simp [hnlt, hplt]

theorem mergeItems_isSome (pd : PageData) :
    ∀ (l : List Record) (i : Nat),
      (mergeItems pd i l).isSome = true ↔
        ∀ j, j < l.length → i + j < pd.names.length ∧ i + j < pd.prices.length := by
  intro l
  induction l with
  | nil =>
    intro i
    simp [mergeItems]
  | cons a rest ih =>
    intro i
    constructor
    · intro h j hj
      simp only [mergeItems] at h
      cases hm : mergeRow pd i a with
      | none => rw [hm] at h; simp at h
      | some r =>
        rw [hm] at h
        cases hms : mergeItems pd (i + 1) rest with
        | none => rw [hms] at h; simp at h
        | some rs =>
          have h1 := (mergeRow_isSome pd i a).mp (by rw [hm]; rfl)
          have h2 := (ih (i + 1)).mp (by rw [hms]; rfl)
          match j, hj with
          | 0, _ => simpa using h1
          | j + 1, hj =>
            have := h2 j (by simpa using Nat.lt_of_succ_lt_succ hj)
            constructor <;> omega
    · intro h
      simp only [mergeItems]
      have h1 : (mergeRow pd i a).isSome = true := by
        rw [mergeRow_isSome]
        simpa using h 0 (by simp)
      have h2 : (mergeItems pd (i + 1) rest).isSome = true := by
        rw [ih (i + 1)]
        intro j hj
        have := h (j + 1) (by simpa using Nat.succ_lt_succ hj)
        constructor <;> omega
      cases hm : mergeRow pd i a with
      | none => rw [hm] at h1; simp at h1
      | some r =>
        cases hms : mergeItems pd (i + 1) rest with
        | none => rw [hms] at h2; simp at h2
        | some rs => rfl

theorem forall_lt_iff_le {n m : Nat} : (∀ j, j < n → j < m) ↔ n ≤ m := by
  constructor
  · intro h
    by_contra hc
    push_neg at hc
    exact absurd (h m hc) (Nat.lt_irrefl m)
  · intro h j hj
    omega

theorem lookup_map_update (k : String) (v : JVal) :
    ∀ d : Record, d.any (fun p => p.1 == k) = true →
      List.lookup k (d.map (fun p => if p.1 == k then (k, v) else p)) = some v := by
  intro d
  induction d with
  | nil => intro h; simp at h
  | cons p rest ih =>
    intro h
    by_cases hp : p.1 = k
    · have hpb : (p.1 == k) = true := beq_iff_eq.mpr hp
      simp only [List.map_cons, hpb, if_true]
      rw [List.lookup]
      simp
    · have hpb : (p.1 == k) = false := beq_false_of_ne hp
      have hkb : (k == p.1) = false := beq_false_of_ne (fun he => hp he.symm)
      simp only [List.map_cons, hpb, if_false, Bool.false_eq_true]
      rw [List.lookup]
      simp only [hkb]
      apply ih
      simp only [List.any_cons, hpb, Bool.false_or] at h
      exact h

theorem lookup_append_of_not_mem (k : String) :
    ∀ (d l : Record), (∀ p ∈ d, p.1 ≠ k) → List.lookup k (d ++ l) = List.lookup k l := by
  intro d l
  induction d with
  | nil => intro _; simp
  | cons p rest ih =>
    intro h
    have hkb : (k == p.1) = false :=
      beq_false_of_ne (fun he => h p (by simp) he.symm)
    rw [List.cons_append, List.lookup]
    simp only [hkb]
    exact ih (fun q hq => h q (by simp [hq]))

theorem lookup_dictInsert_self (d : Record) (k : String) (v : JVal) :
    List.lookup k (dictInsert d k v) = some v := by
  unfold dictInsert
  by_cases h : d.any (fun p => p.1 == k) = true
  · rw [if_pos h]
    exact lookup_map_update k v d h
  · rw [if_neg h]
    rw [lookup_append_of_not_mem]
    · simp [List.lookup]
    · intro p hp hpk
      apply h
      rw [List.any_eq_true]
      exact ⟨p, hp, by simp [hpk]⟩

theorem mem_keys_dictInsert (d : Record) (k s : String) (v : JVal) :
    s ∈ (dictInsert d k v).map Prod.fst ↔ s ∈ d.map Prod.fst ∨ s = k := by
  unfold dictInsert
  by_cases h : d.any (fun p => p.1 == k) = true
  · rw [if_pos h]
    rw [List.any_eq_true] at h
    obtain ⟨w, hw, hwk⟩ := h
    rw [beq_iff_eq] at hwk
    simp only [List.map_map, List.mem_map, Function.comp_apply]
    constructor
    · rintro ⟨p, hp, hps⟩
      by_cases hpk : p.1 = k
      · rw [if_pos (beq_iff_eq.mpr hpk)] at hps
        exact Or.inr hps.symm
      · rw [if_neg (by simp [hpk])] at hps
        exact Or.inl ⟨p, hp, hps⟩
    · rintro (⟨p, hp, hps⟩ | hsk)
      · by_cases hpk : p.1 = k
        · have hsk : s = k := hps.symm.trans hpk
          refine ⟨w, hw, ?_⟩
          rw [if_pos (beq_iff_eq.mpr hwk), hsk]
        · refine ⟨p, hp, ?_⟩
          rw [if_neg (by simp [hpk])]
          exact hps
      · refine ⟨w, hw, ?_⟩
        rw [if_pos (beq_iff_eq.mpr hwk), hsk]
  · rw [if_neg h]
    simp [List.map_append]

theorem chunkerAux_mem_length {α : Type} (size : Nat) (hsz : 0 < size) :
    ∀ (fuel : Nat) (seq : List α), seq.length ≤ fuel → size ∣ seq.length →
      ∀ g ∈ chunkerAux size seq fuel, g.length = size := by
  intro fuel
  induction fuel with
  | zero => intro seq hle hdvd g hg; simp [chunkerAux] at hg
  | succ n ih =>
    intro seq hle hdvd g hg
    by_cases h0 : seq.length = 0
    · simp [chunkerAux, h0] at hg
    · simp only [chunkerAux, if_neg h0, List.mem_cons] at hg
      have hsize_le : size ≤ seq.length := Nat.le_of_dvd (by omega) hdvd
      rcases hg with hg | hg
      · rw [hg, List.length_take]
        omega
      · refine ih (seq.drop size) (by simp only [List.length_drop]; omega) ?_ g hg
        simp only [List.length_drop]
        rcases hdvd with ⟨c, hc⟩
        match c, hc with
        | 0, hc => omega
        | c + 1, hc =>
          refine ⟨c, ?_⟩
          rw [Nat.mul_succ] at hc
          omega

theorem chunker_mem_length {α : Type} (seq : List α) (size : Nat) (hsz : 0 < size)
    (hdvd : size ∣ seq.length) : ∀ g ∈ chunker seq size, g.length = size := by
  unfold chunker
  rw [if_neg (by omega : ¬ size = 0)]
  exact chunkerAux_mem_length size hsz seq.length seq (Nat.le_refl _) hdvd

theorem mem_keys_foldl (s : String) :
    ∀ (ps : List (String × String)) (d : Record),
      s ∈ (ps.foldl (fun d kv => dictInsert d kv.1 (JVal.jstr kv.2)) d).map Prod.fst ↔
        s ∈ d.map Prod.fst ∨ s ∈ ps.map Prod.fst := by
  intro ps
  induction ps with
  | nil => intro d; simp
  | cons p rest ih =>
    intro d
    simp only [List.foldl_cons]
    rw [ih, mem_keys_dictInsert]
    simp only [List.map_cons, List.mem_cons]
    tauto

theorem mem_keys_dictOfZip (ks vs : List String) (s : String) :
    s ∈ (dictOfZip ks vs).map Prod.fst ↔ s ∈ (ks.zip vs).map Prod.fst := by
  unfold dictOfZip
  rw [mem_keys_foldl]
  simp

theorem mergeItems_mem_shape (pd : PageData) :
    ∀ (l : List Record) (i : Nat) (out : List Record),
      mergeItems pd i l = some out →
      ∀ r ∈ out, ∃ it ∈ l, ∃ nm prv,
        r = dictInsert (dictInsert it "name" (JVal.jstr nm)) "price" prv := by
  intro l
  induction l with
  | nil =>
    intro i out h r hr
    simp only [mergeItems, Option.some.injEq] at h
    rw [← h] at hr
    simp at hr
  | cons a rest ih =>
    intro i out h r hr
    simp only [mergeItems] at h
    cases hm : mergeRow pd i a with
    | none => rw [hm] at h; exact absurd h (by simp)
    | some r0 =>
      rw [hm] at h
      cases hms : mergeItems pd (i + 1) rest with
      | none => rw [hms] at h; exact absurd h (by simp)
      | some rs =>
        rw [hms] at h
        simp only [Option.some.injEq] at h
        rw [← h] at hr
        rcases List.mem_cons.mp hr with hr0 | hrs
        · unfold mergeRow at hm
          cases hp : pd.prices.get? i with
          | none => rw [hp] at hm; exact absurd hm (by simp)
          | some pr =>
            rw [hp] at hm
            cases hn : pd.names.get? i with
            | none => rw [hn] at hm; exact absurd hm (by simp)
            | some nm =>
              rw [hn] at hm
              simp only [Option.some.injEq] at hm
              exact ⟨a, by simp, nm, (if pr = "Add" then JVal.jnull else JVal.jstr pr),
                by rw [hr0, ← hm]⟩
        · obtain ⟨it, hit, nm, prv, he⟩ := ih (i + 1) rs hms r hrs
          exact ⟨it, by simp [hit], nm, prv, he⟩

theorem toList_append (s t : String) : (s ++ t).toList = s.toList ++ t.toList :=
  String.data_append s t

theorem string_mk_toList (s : String) : String.mk s.toList = s := rfl

theorem string_mk_data (s : String) : String.mk s.data = s := rfl

theorem splitChars_ne_nil : ∀ l : List Char, splitChars l ≠ [] := by
  intro l
  cases l with
  | nil => simp [splitChars]
  | cons c rest =>
    simp only [splitChars]
    cases h : splitChars rest with
    | nil => simp
    | cons g gs => by_cases hc : c = '/' <;> simp [hc]

theorem splitChars_no_slash : ∀ l : List Char, '/' ∉ l → splitChars l = [l] := by
  intro l
  induction l with
  | nil => intro _; rfl
  | cons c rest ih =>
    intro h
    have hc : c ≠ '/' := fun he => h (by simp [he])
    have hr : '/' ∉ rest := fun hm => h (by simp [hm])
    simp only [splitChars, ih hr]
    simp [hc]

theorem splitChars_append_slash : ∀ (xs ys : List Char), '/' ∉ xs →
    splitChars (xs ++ '/' :: ys) = xs :: splitChars ys := by
  intro xs ys
  induction xs with
  | nil =>
    intro _
    simp only [List.nil_append, splitChars]
    cases h : splitChars ys with
    | nil => exact absurd h (splitChars_ne_nil ys)
    | cons g gs => simp
  | cons c rest ih =>
    intro h
    have hc : c ≠ '/' := fun he => h (by simp [he])
    have hr : '/' ∉ rest := fun hm => h (by simp [hm])
    simp only [List.cons_append, splitChars, List.append_eq]
    rw [ih hr]
    simp [hc]

theorem fileNameOf_absEndpoint (frag : String) (hf : '/' ∉ frag.toList) :
    fileNameOf (absEndpoint ("/" ++ frag)) = some (frag ++ ".json") := by
  unfold absEndpoint BASE_URL fileNameOf
  simp only [toList_append]
  rw [show ("/" : String).toList = ['/'] from rfl,
    show ("/fetch" : String).toList = '/' :: "fetch".toList from rfl]
  rw [List.append_assoc, List.drop_append_of_le_length (by decide)]
  rw [show (("https://pcpartpicker.com/products" : String).toList).drop 8 =
      "pcpartpicker.com".toList ++ '/' :: "products".toList from by decide]
  simp only [List.append_assoc, List.cons_append, List.singleton_append, List.nil_append]
  rw [splitChars_append_slash _ _ (by decide),
    splitChars_append_slash _ _ (by decide),
    splitChars_append_slash _ _ hf,
    splitChars_no_slash _ (by decide)]
  rfl

theorem scrapeGo_cons_none (dir : String) (site : String → Nat → PageData)
    (e : QueueEntry) (rest : List QueueEntry) (hw : scrapeEntry dir site e = none) :
    scrapeGo dir site (e :: rest) =
      { writes := [], error := some "list index out of range" } := by
  simp only [scrapeGo, hw]

theorem scrapeGo_cons_some (dir : String) (site : String → Nat → PageData)
    (e : QueueEntry) (rest : List QueueEntry) (w : String × String)
    (hw : scrapeEntry dir site e = some w) :
    scrapeGo dir site (e :: rest) =
      { writes := w :: (scrapeGo dir site rest).writes
        error := (scrapeGo dir site rest).error } := by
  simp only [scrapeGo, hw]

theorem scrapeGo_writes (dir : String) (site : String → Nat → PageData) :
    ∀ q : List QueueEntry, (scrapeGo dir site q).error = none →
      (scrapeGo dir site q).writes.length = q.length ∧
      ∀ i : Nat, ∀ e : QueueEntry, q.get? i = some e →
        ∃ name items, fileNameOf e.url = some name ∧
          scrapeCategory e (site e.url) = some items ∧
          (scrapeGo dir site q).writes.get? i = some (dir ++ "/" ++ name, dumps items) := by
  intro q
  induction q with
  | nil =>
    intro _
    exact ⟨rfl, by intro i e h; simp at h⟩
  | cons e rest ih =>
    intro herr
    cases hw : scrapeEntry dir site e with
    | none =>
      rw [scrapeGo_cons_none dir site e rest hw] at herr
      simp at herr
    | some w =>
      rw [scrapeGo_cons_some dir site e rest w hw] at herr ⊢
      simp only at herr ⊢
      obtain ⟨hlen, hpt⟩ := ih herr
      refine ⟨by simp [hlen], ?_⟩
      intro i e' he'
      match i, he' with
      | 0, he' =>
        simp only [List.get?, Option.some.injEq] at he'
        unfold scrapeEntry at hw
        cases hc : scrapeCategory e (site e.url) with
        | none => rw [hc] at hw; simp at hw
        | some items =>
          rw [hc] at hw
          cases hn : fileNameOf e.url with
          | none => rw [hn] at hw; simp at hw
          | some name =>
            rw [hn] at hw
            simp only [Option.some.injEq] at hw
            refine ⟨name, items, ?_, ?_, ?_⟩
            · rw [← he']; exact hn
            · rw [← he']; exact hc
            · simp [← hw]
      | i + 1, he' =>
        simp only [List.get?] at he'
        exact hpt i e' he'

theorem escBody_nil : escBody [] = [] := rfl

theorem escBody_cons (c : Char) (l : List Char) :
    escBody (c :: l) = escapeChar c ++ escBody l := rfl

theorem readStrBody_quote (cs : List Char) : readStrBody ('"' :: cs) = some ([], cs) := by
  rw [readStrBody.eq_def]
  simp

theorem readStrBody_cons_esc (e u : Char) (hu : unescCh e = some u) (cs : List Char) :
    readStrBody ('\x5c' :: e :: cs) =
      (readStrBody cs).map (fun p => (u :: p.1, p.2)) := by
  rw [readStrBody.eq_def]
  simp only [hu]
  norm_num
  cases readStrBody cs with
  | none => rfl
  | some p => rfl

theorem readStrBody_cons_plain (c : Char) (h1 : ¬ c = '"') (h2 : ¬ c = '\x5c')
    (cs : List Char) :
    readStrBody (c :: cs) = (readStrBody cs).map (fun p => (c :: p.1, p.2)) := by
  rw [readStrBody.eq_def]
  simp only [h1, h2, if_false]
  cases readStrBody cs with
  | none => rfl
  | some p => rfl

theorem readStrBody_escBody : ∀ (l : List Char) (rest : List Char),
    readStrBody (escBody l ++ '"' :: rest) = some (l, rest) := by
  intro l
  induction l with
  | nil => intro rest; rw [escBody_nil, List.nil_append, readStrBody_quote]
  | cons c l ih =>
    intro rest
    rw [escBody_cons, List.append_assoc]
    by_cases h1 : c = '"'
    · subst h1
      rw [show escapeChar '"' = ['\x5c', '"'] from rfl]
      simp only [List.cons_append, List.nil_append]
      rw [readStrBody_cons_esc '"' '"' (by decide), ih]
      rfl
    · by_cases h2 : c = '\x5c'
      · subst h2
        rw [show escapeChar '\x5c' = ['\x5c', '\x5c'] from rfl]
        simp only [List.cons_append, List.nil_append]
        rw [readStrBody_cons_esc '\x5c' '\x5c' (by decide), ih]
        rfl
      · by_cases h3 : c = '\n'
        · subst h3
          rw [show escapeChar '\n' = ['\x5c', 'n'] from rfl]
          simp only [List.cons_append, List.nil_append]
          rw [readStrBody_cons_esc 'n' '\n' (by decide), ih]
          rfl
        · by_cases h4 : c = '\t'
          · subst h4
            rw [show escapeChar '\t' = ['\x5c', 't'] from rfl]
            simp only [List.cons_append, List.nil_append]
            rw [readStrBody_cons_esc 't' '\t' (by decide), ih]
            rfl
          · by_cases h5 : c = '\r'
            · subst h5
              rw [show escapeChar '\r' = ['\x5c', 'r'] from rfl]
              simp only [List.cons_append, List.nil_append]
              rw [readStrBody_cons_esc 'r' '\r' (by decide), ih]
              rfl
            · by_cases h6 : c = '\x08'
              · subst h6
                rw [show escapeChar '\x08' = ['\x5c', 'b'] from rfl]
                simp only [List.cons_append, List.nil_append]
                rw [readStrBody_cons_esc 'b' '\x08' (by decide), ih]
                rfl
              · by_cases h7 : c = '\x0c'
                · subst h7
                  rw [show escapeChar '\x0c' = ['\x5c', 'f'] from rfl]
                  simp only [List.cons_append, List.nil_append]
                  rw [readStrBody_cons_esc 'f' '\x0c' (by decide), ih]
                  rfl
                · rw [show escapeChar c = [c] from by
                      simp [escapeChar, h1, h2, h3, h4, h5, h6, h7]]
                  simp only [List.cons_append, List.nil_append]
                  rw [readStrBody_cons_plain c h1 h2, ih]
                  rfl

theorem readVal_dumpVal : ∀ (v : JVal) (rest : List Char),
    readVal (dumpVal v ++ rest) = some (v, rest) := by
  intro v rest
  cases v with
  | jnull => simp [dumpVal, readVal]
  | jstr s =>
    simp only [dumpVal, encodeString, List.cons_append, List.append_assoc,
      List.singleton_append]
    simp [readVal, readStrBody_escBody, string_mk_toList]

theorem readMembers_joinSep :
    ∀ (r : Record) (fuel : Nat) (rest : List Char), r ≠ [] → r.length ≤ fuel →
      readMembers fuel (joinSep (r.map dumpMember) ++ '}' :: rest) = some (r, rest) := by
  intro r
  induction r with
  | nil => intro fuel rest hne _; exact absurd rfl hne
  | cons kv r' ih =>
    intro fuel rest _ hlen
    obtain ⟨k, v⟩ := kv
    cases fuel with
    | zero => simp at hlen
    | succ f =>
      cases r' with
      | nil =>
        simp only [List.map_cons, List.map_nil, joinSep, dumpMember, encodeString,
          List.cons_append, List.append_assoc, List.singleton_append, List.nil_append,
          String.toList]
        rw [readMembers.eq_def]
        simp [readStrBody_escBody, readVal_dumpVal, string_mk_toList, string_mk_data]
      | cons kv₂ r'' =>
        have hih := ih f rest (by simp) (by simp only [List.length_cons] at hlen ⊢; omega)
        simp only [List.map_cons, joinSep, dumpMember, encodeString,
          List.cons_append, List.append_assoc, List.singleton_append,
          List.nil_append, String.toList] at hih ⊢
        rw [readMembers.eq_def]
        simp [readStrBody_escBody, readVal_dumpVal, string_mk_toList, string_mk_data, hih]

theorem readObj_dumpObj (fuel : Nat) (r : Record) (rest : List Char)
    (hlen : r.length ≤ fuel) : readObj fuel (dumpObj r ++ rest) = some (r, rest) := by
  cases r with
  | nil => simp [dumpObj, joinSep, readObj]
  | cons kv r' =>
    have hmem := readMembers_joinSep (kv :: r') fuel rest (by simp) hlen
    obtain ⟨k, v⟩ := kv
    cases r' with
    | nil =>
      simp only [dumpObj, List.map_cons, List.map_nil, joinSep, dumpMember, encodeString,
        List.cons_append, List.append_assoc, List.singleton_append,
        List.nil_append, String.toList] at hmem ⊢
      simp [readObj, hmem]
    | cons kv₂ r'' =>
      simp only [dumpObj, List.map_cons, joinSep, dumpMember, encodeString,
        List.cons_append, List.append_assoc, List.singleton_append,
        List.nil_append, String.toList] at hmem ⊢
      simp [readObj, hmem]

theorem readItems_joinSep :
    ∀ (items : List Record) (fuel : Nat) (rest : List Char), items ≠ [] →
      (∀ x ∈ items, x.length + items.length ≤ fuel) →
      readItems fuel (joinSep (items.map dumpObj) ++ ']' :: rest) = some (items, rest) := by
  intro items
  induction items with
  | nil => intro fuel rest hne _; exact absurd rfl hne
  | cons r items' ih =>
    intro fuel rest _ hb
    cases fuel with
    | zero =>
      have := hb r (by simp)
      simp at this
    | succ f =>
      cases items' with
      | nil =>
        have hobj := readObj_dumpObj f r (']' :: rest)
          (by have := hb r (by simp); simp only [List.length_cons, List.length_nil] at this; omega)
        simp only [List.map_cons, List.map_nil, joinSep]
        rw [readItems.eq_def]
        simp [hobj]
      | cons r₂ items'' =>
        have hih := ih f rest (by simp)
          (by intro x hx
              have := hb x (by simp [hx])
              simp only [List.length_cons] at this ⊢
              omega)
        have hobj := readObj_dumpObj f r
          (',' :: ' ' :: (joinSep (List.map dumpObj (r₂ :: items'')) ++ ']' :: rest))
          (by have := hb r (by simp); simp only [List.length_cons] at this; omega)
        simp only [List.map_cons, joinSep, List.append_assoc,
          List.cons_append] at hih hobj ⊢
        rw [readItems.eq_def]
        simp [hobj, hih]

theorem joinSep_length_count :
    ∀ l : List (List Char), (∀ x ∈ l, 1 ≤ x.length) → l.length ≤ (joinSep l).length := by
  intro l
  induction l with
  | nil => intro _; simp [joinSep]
  | cons x xs ih =>
    intro h
    cases xs with
    | nil => simpa [joinSep] using h x (by simp)
    | cons y ys =>
      have h1 := h x (by simp)
      have h2 := ih (fun z hz => h z (by simp [hz]))
      simp only [joinSep, List.length_append, List.length_cons] at h2 ⊢
      omega

theorem dumpMember_length_pos (kv : String × JVal) : 1 ≤ (dumpMember kv).length := by
  simp only [dumpMember, encodeString, List.length_append, List.length_cons]
  omega

theorem dumpObj_length_ge (r : Record) : r.length + 2 ≤ (dumpObj r).length := by
  have h := joinSep_length_count (r.map dumpMember) (by
    intro x hx
    obtain ⟨kv, _, he⟩ := List.mem_map.mp hx
    rw [← he]
    exact dumpMember_length_pos kv)
  simp only [List.length_map] at h
  simp only [dumpObj, List.length_append, List.length_cons, List.length_nil]
  omega

theorem joinSep_objs_bound :
    ∀ (items : List Record) (x : Record), x ∈ items →
      x.length + items.length ≤ (joinSep (items.map dumpObj)).length := by
  intro items
  induction items with
  | nil => intro x hx; simp at hx
  | cons y ys ih =>
    intro x hx
    cases ys with
    | nil =>
      have hxy : x = y := by simpa using hx
      subst hxy
      have := dumpObj_length_ge x
      simp only [List.map_cons, List.map_nil, joinSep, List.length_cons, List.length_nil]
      omega
    | cons z zs =>
      have hy := dumpObj_length_ge y
      have hcnt := joinSep_length_count ((z :: zs).map dumpObj) (by
        intro w hw
        obtain ⟨rr, _, he⟩ := List.mem_map.mp hw
        rw [← he]
        have := dumpObj_length_ge rr
        omega)
      simp only [List.length_map, List.length_cons] at hcnt
      simp only [List.map_cons, joinSep, List.length_append, List.length_cons] at hcnt ⊢
      rcases List.mem_cons.mp hx with hxy | hxys
      · subst hxy
        omega
      · have hih := ih x hxys
        simp only [List.map_cons, joinSep, List.length_cons] at hih
        omega

/-! ### Claim theorems -/

/-- C2 (as stated, refuted): on the page with attribute names ["x", "y"]
and values ["a", "b", "c"], the record assembled from the partial final
chunk has key list ["x", "name", "price"]: the attribute key "y" is
missing, so its key set is not the attribute-name list plus "name" and
"price". -/
theorem record_keys_not_exact :
    (scrapePage ["x", "y"] ⟨["a", "b", "c"], ["n1", "n2"], ["p1", "p2"]⟩).map
        (fun out => out.map (fun r => r.map Prod.fst)) =
      some [["x", "y", "name", "price"], ["x", "name", "price"]] ∧
    "y" ∈ (["x", "y"] : List String) ∧
    "y" ∉ (["x", "name", "price"] : List String) := by
  decide

/-- C2 (amended): when a page's value count is an exact multiple of the
positive attribute count, every object assembled for that page has exactly
the key set of the category's attribute-name list plus "name" and "price";
an object built from a partial final chunk of a non-multiple page instead
carries only a zipped prefix of the attribute names. -/
theorem scrapePage_keys_exact (cats : List String) (pd : PageData) (out : List Record)
    (hk : 0 < cats.length) (hmul : cats.length ∣ pd.values.length)
    (h : scrapePage cats pd = some out) :
    ∀ r ∈ out, ∀ s : String,
      s ∈ r.map Prod.fst ↔ (s ∈ cats ∨ s = "name" ∨ s = "price") := by
  intro r hr s
  unfold scrapePage at h
  obtain ⟨it, hit, nm, prv, he⟩ := mergeItems_mem_shape pd _ _ _ h r hr
  rw [he, mem_keys_dictInsert, mem_keys_dictInsert]
  rcases List.mem_map.mp hit with ⟨g, hg, hgit⟩
  have hglen : g.length = cats.length := chunker_mem_length pd.values cats.length hk hmul g hg
  rw [← hgit, mem_keys_dictOfZip, List.map_fst_zip cats g (by omega)]
  tauto

/-- Witness for scrapePage_keys_exact at a one-attribute, one-value page. -/
theorem scrapePage_keys_exact_witness :
    0 < (["x"] : List String).length ∧
    (["x"] : List String).length ∣ (⟨["a"], ["n"], ["p"]⟩ : PageData).values.length ∧
    scrapePage ["x"] ⟨["a"], ["n"], ["p"]⟩ =
      some [[("x", JVal.jstr "a"), ("name", JVal.jstr "n"), ("price", JVal.jstr "p")]] ∧
    ("x" ∈ ([("x", JVal.jstr "a"), ("name", JVal.jstr "n"), ("price", JVal.jstr "p")] :
        Record).map Prod.fst ↔
      ("x" ∈ (["x"] : List String) ∨ "x" = "name" ∨ "x" = "price")) :=
  ⟨by decide, by decide, by decide,
    scrapePage_keys_exact ["x"] ⟨["a"], ["n"], ["p"]⟩
      [[("x", JVal.jstr "a"), ("name", JVal.jstr "n"), ("price", JVal.jstr "p")]]
      (by decide) (by decide) (by decide)
      [("x", JVal.jstr "a"), ("name", JVal.jstr "n"), ("price", JVal.jstr "p")] (by decide) "x"⟩

/-- C1 (as stated, refuted): on the page with attribute names ["x", "y"]
(k = 2) and flat value sequence ["a", "b", "c"] (n = 3), the code assembles
2 records, not floor(3 / 2) = 1: the remainder value "c" produces a record
of its own. -/
theorem record_count_not_floor :
    (scrapePage ["x", "y"] ⟨["a", "b", "c"], ["n1", "n2"], ["p1", "p2"]⟩).map List.length ≠
      some ((["a", "b", "c"] : List String).length / (["x", "y"] : List String).length) ∧
    (scrapePage ["x", "y"] ⟨["a", "b", "c"], ["n1", "n2"], ["p1", "p2"]⟩).map List.length =
      some 2 := by
  decide

/-- C1 (amended): for every scraped page of a category with k > 0 attribute
names and n flat specification values, the number of records assembled is
the CEILING of n / k, not the floor: _chunker yields ceil(n / k) chunks and
dict(zip(..)) truncates the key list against a short final chunk instead of
dropping the chunk, so the n mod k remainder values produce one additional
(partial) record. -/
theorem scrapePage_record_count (cats : List String) (pd : PageData) (out : List Record)
    (hk : 0 < cats.length) (h : scrapePage cats pd = some out) :
    out.length = (pd.values.length + cats.length - 1) / cats.length := by
  unfold scrapePage at h
  rw [mergeItems_length pd _ _ _ h, List.length_map, chunker_length _ _ hk]

/-- Witness for scrapePage_record_count at a concrete one-row page. -/
theorem scrapePage_record_count_witness :
    0 < (["x"] : List String).length ∧
    scrapePage ["x"] ⟨["a"], ["n"], ["p"]⟩ =
      some [[("x", JVal.jstr "a"), ("name", JVal.jstr "n"), ("price", JVal.jstr "p")]] ∧
    ([[("x", JVal.jstr "a"), ("name", JVal.jstr "n"), ("price", JVal.jstr "p")]] : List Record).length =
      ((⟨["a"], ["n"], ["p"]⟩ : PageData).values.length + (["x"] : List String).length - 1) /
        (["x"] : List String).length :=
  ⟨by decide, by decide,
    scrapePage_record_count ["x"] ⟨["a"], ["n"], ["p"]⟩ _ (by decide) (by decide)⟩

/-- C3: for every row merged into a record, a price text equal to the
literal "Add" yields a null price field, and any other price text is stored
in the price field verbatim. -/
theorem mergeRow_price_field (pd : PageData) (i : Nat) (item r : Record) (pr : String)
    (hpr : pd.prices.get? i = some pr) (h : mergeRow pd i item = some r) :
    List.lookup "price" r = some (if pr = "Add" then JVal.jnull else JVal.jstr pr) := by
  unfold mergeRow at h
  rw [hpr] at h
  cases hn : pd.names.get? i with
  | none => rw [hn] at h; exact absurd h (by simp)
  | some nm =>
    rw [hn] at h
    simp only [Option.some.injEq] at h
    rw [← h]
    exact lookup_dictInsert_self _ _ _

/-- Witness for mergeRow_price_field at a concrete row with price "Add". -/
theorem mergeRow_price_field_witness :
    (⟨[], ["nm"], ["Add"]⟩ : PageData).prices.get? 0 = some "Add" ∧
    mergeRow ⟨[], ["nm"], ["Add"]⟩ 0 [] =
      some [("name", JVal.jstr "nm"), ("price", JVal.jnull)] ∧
    List.lookup "price" [("name", JVal.jstr "nm"), ("price", JVal.jnull)] =
      some (if "Add" = "Add" then JVal.jnull else JVal.jstr "Add") :=
  ⟨by decide, by decide,
    mergeRow_price_field ⟨[], ["nm"], ["Add"]⟩ 0 [] _ "Add" (by decide) (by decide)⟩

/-- C7: with an unbuilt (None) or empty scrape queue, the scrape step fails
immediately on its assert with the descriptive message, and no file is
written (and no page is consulted: the site function is never applied). -/
theorem scrape_empty_queue_guard (dir : String) (site : String → Nat → PageData) :
    scrape none dir site = { writes := [], error := some assertMsg } ∧
    scrape (some []) dir site = { writes := [], error := some assertMsg } :=
  ⟨rfl, rfl⟩

/-- C8: the concrete scenario: category "cpu" with 1 page, attribute names
["price_per_core", "cores"], page values ["3.50", "4"], row name
"Intel Core i5" and price text "Add" produces exactly the file cpu.json in
the output directory with the expected one-element JSON array. -/
theorem cpu_scenario_output :
    scrape
        (some [{ url := "https://pcpartpicker.com/products/cpu/fetch",
                 categories := ["price_per_core", "cores"], page_count := 1 }])
        "./data"
        (fun _ _ => ⟨["3.50", "4"], ["Intel Core i5"], ["Add"]⟩) =
      { writes := [("./data/cpu.json",
          "[\x7b\"price_per_core\": \"3.50\", \"cores\": \"4\", \"name\": \"Intel Core i5\", \"price\": null\x7d]")],
        error := none } := by
  decide

/-- C10: the merge loop indexes the name and price lists at every row index
below the chunk count ceil(n / k); it stays in bounds, and the page scrape
does not abort with an IndexError, exactly when that chunk count is at most
the length of the name list and of the price list.  In particular a page
whose value count is not a multiple of k raises the chunk count above
floor(n / k) and can exceed the row count, aborting the run. -/
theorem scrapePage_inbounds_iff (cats : List String) (pd : PageData) (hk : 0 < cats.length) :
    (scrapePage cats pd).isSome = true ↔
      ((pd.values.length + cats.length - 1) / cats.length ≤ pd.names.length ∧
       (pd.values.length + cats.length - 1) / cats.length ≤ pd.prices.length) := by
  unfold scrapePage
  rw [mergeItems_isSome]
  have hlen : ((chunker pd.values cats.length).map (fun g => dictOfZip cats g)).length =
      (pd.values.length + cats.length - 1) / cats.length := by
    rw [List.length_map, chunker_length _ _ hk]
  rw [hlen]
  simp only [Nat.zero_add]
  constructor
  · intro h
    exact ⟨forall_lt_iff_le.mp (fun j hj => (h j hj).1),
      forall_lt_iff_le.mp (fun j hj => (h j hj).2)⟩
  · intro h j hj
    exact ⟨forall_lt_iff_le.mpr h.1 j hj, forall_lt_iff_le.mpr h.2 j hj⟩

/-- C4: an endpoint whose validation GET returns a non-success status
contributes no queue entry, and the remaining endpoints are still
processed: whenever every validated page carries a numeric page count, the
queue is exactly the in-order filterMap of the successfully validated
endpoints. -/
theorem create_scrape_queue_skips_failed (respond : String → EndpointResponse) :
    ∀ urls : List String,
      (∀ u ∈ urls, (respond u).ok = true → (pyInt (respond u).last_li_text).isSome = true) →
      create_scrape_queue respond urls =
        some (urls.filterMap (fun u =>
          if (respond u).ok then some (mkEntry u (respond u)) else none)) := by
  intro urls
  induction urls with
  | nil => intro _; rfl
  | cons url rest ih =>
    intro h
    simp only [create_scrape_queue]
    by_cases hok : (respond url).ok = true
    · rw [if_pos hok]
      have hs := h url (by simp) hok
      cases hn : pyInt (respond url).last_li_text with
      | none => rw [hn] at hs; simp at hs
      | some n =>
        rw [ih (fun u hu hku => h u (by simp [hu]) hku)]
        simp [List.filterMap_cons, hok]
    · rw [if_neg hok]
      rw [ih (fun u hu hku => h u (by simp [hu]) hku)]
      simp [List.filterMap_cons, hok]

/-- Witness for create_scrape_queue_skips_failed: one validated endpoint
followed by one that fails validation; only the first yields an entry. -/
theorem create_scrape_queue_skips_failed_witness :
    (∀ u ∈ (["https://pcpartpicker.com/products/cpu/fetch", "bad"] : List String),
      ((fun u => if u = "bad" then (⟨false, "", []⟩ : EndpointResponse)
          else ⟨true, "2", ["Core Count"]⟩) u).ok = true →
      (pyInt ((fun u => if u = "bad" then (⟨false, "", []⟩ : EndpointResponse)
          else ⟨true, "2", ["Core Count"]⟩) u).last_li_text).isSome = true) ∧
    create_scrape_queue
        (fun u => if u = "bad" then (⟨false, "", []⟩ : EndpointResponse)
          else ⟨true, "2", ["Core Count"]⟩)
        ["https://pcpartpicker.com/products/cpu/fetch", "bad"] =
      some ((["https://pcpartpicker.com/products/cpu/fetch", "bad"] : List String).filterMap
        (fun u =>
          if ((fun u => if u = "bad" then (⟨false, "", []⟩ : EndpointResponse)
              else ⟨true, "2", ["Core Count"]⟩) u).ok then
            some (mkEntry u ((fun u => if u = "bad" then (⟨false, "", []⟩ : EndpointResponse)
              else ⟨true, "2", ["Core Count"]⟩) u))
          else none)) :=
  ⟨by decide,
    create_scrape_queue_skips_failed
      (fun u => if u = "bad" then (⟨false, "", []⟩ : EndpointResponse)
        else ⟨true, "2", ["Core Count"]⟩)
      ["https://pcpartpicker.com/products/cpu/fetch", "bad"] (by decide)⟩

/-- C5: the derived attribute-name list has one entry per walked
specification column, each entry is its label lowercased with spaces
replaced by underscores, and the list order is the reverse of the raw
DOM-walk order. -/
theorem deriveCategories_normalized_reversed (labels : List String) :
    (deriveCategories labels).length = labels.length ∧
    ∀ i, i < labels.length →
      (deriveCategories labels).get? i =
        (labels.get? (labels.length - 1 - i)).map (fun l => (l.toLower).replace " " "_") := by
  constructor
  · simp [deriveCategories]
  · intro i hi
    unfold deriveCategories
    rw [List.get?_reverse (by simpa using hi), List.get?_map]
    simp only [List.length_map]
    rfl

/-- Witness for deriveCategories_normalized_reversed at a two-column walk. -/
theorem deriveCategories_normalized_reversed_witness :
    (deriveCategories ["Core Count", "TDP"]).length =
      (["Core Count", "TDP"] : List String).length ∧
    (deriveCategories ["Core Count", "TDP"]).get? 0 =
      ((["Core Count", "TDP"] : List String).get?
          ((["Core Count", "TDP"] : List String).length - 1 - 0)).map
        (fun l => (l.toLower).replace " " "_") :=
  ⟨(deriveCategories_normalized_reversed ["Core Count", "TDP"]).1,
    (deriveCategories_normalized_reversed ["Core Count", "TDP"]).2 0 (by decide)⟩

/-- C6: on a run in which no category aborts, exactly one file is written
per queued category, in queue order: the i-th write's path is the output
directory joined with the name derived from the i-th entry's url (drop the
first 8 characters, split on "/", take the second-to-last fragment, append
".json"), and its content is the JSON serialization of that category's
accumulated record list.  For an endpoint "/frag" with a slash-free
fragment the derived name is frag + ".json": the final path segment of the
category URL with the request-only "/fetch" suffix removed.  (Creation of
the output directory is an IO effect outside the embedding.) -/
theorem scrape_writes_one_file_per_category (q : List QueueEntry) (dir : String)
    (site : String → Nat → PageData) (h : (scrape (some q) dir site).error = none) :
    ((scrape (some q) dir site).writes.length = q.length ∧
     ∀ i : Nat, ∀ e : QueueEntry, q.get? i = some e →
       ∃ name items, fileNameOf e.url = some name ∧
         scrapeCategory e (site e.url) = some items ∧
         (scrape (some q) dir site).writes.get? i =
           some (dir ++ "/" ++ name, dumps items)) ∧
    ∀ frag : String, '/' ∉ frag.toList →
      fileNameOf (absEndpoint ("/" ++ frag)) = some (frag ++ ".json") := by
  cases q with
  | nil => simp [scrape, assertMsg] at h
  | cons e rest =>
    exact ⟨scrapeGo_writes dir site (e :: rest) h,
      fun frag hf => fileNameOf_absEndpoint frag hf⟩

/-- Witness for scrape_writes_one_file_per_category on a one-category run. -/
theorem scrape_writes_one_file_per_category_witness :
    (scrape (some [⟨"https://pcpartpicker.com/products/case/fetch", ["color"], 1⟩]) "./out"
        (fun _ _ => ⟨["black"], ["NZXT"], ["42.99"]⟩)).error = none ∧
    (scrape (some [⟨"https://pcpartpicker.com/products/case/fetch", ["color"], 1⟩]) "./out"
        (fun _ _ => ⟨["black"], ["NZXT"], ["42.99"]⟩)).writes.length =
      ([⟨"https://pcpartpicker.com/products/case/fetch", ["color"], 1⟩] :
        List QueueEntry).length :=
  ⟨by decide,
    (scrape_writes_one_file_per_category
      [⟨"https://pcpartpicker.com/products/case/fetch", ["color"], 1⟩] "./out"
      (fun _ _ => ⟨["black"], ["NZXT"], ["42.99"]⟩) (by decide)).1.1⟩

/-- C9: serializing any category record list to JSON as the scraper does
for the output file and parsing that JSON back yields the original list:
same length, same order, and each object with the same key-value pairs. -/
theorem loads_dumps (items : List Record) : loads (dumps items) = some items := by
  cases items with
  | nil => rfl
  | cons r items' =>
    have hitems := readItems_joinSep (r :: items')
        ((('[' :: joinSep ((r :: items').map dumpObj)) ++ [']']).length) [] (by simp)
        (by
          intro x hx
          have := joinSep_objs_bound (r :: items') x hx
          simp only [List.length_append, List.length_cons, List.length_nil] at this ⊢
          omega)
    unfold loads dumps
    rw [show (String.mk (('[' :: joinSep ((r :: items').map dumpObj)) ++ [']'])).toList
        = ('[' :: joinSep ((r :: items').map dumpObj)) ++ [']'] from rfl]
    generalize hn : (('[' :: joinSep ((r :: items').map dumpObj)) ++ [']']).length = n
    rw [hn] at hitems
    cases items' with
    | nil =>
      cases r with
      | nil =>
        simp only [List.map_cons, List.map_nil, joinSep, dumpObj, dumpMember,
          List.cons_append, List.append_assoc, List.singleton_append,
          List.nil_append] at hitems ⊢
        simp [hitems]
      | cons kv r' =>
        simp only [List.map_cons, List.map_nil, joinSep, dumpObj, dumpMember, encodeString,
          List.cons_append, List.append_assoc, List.singleton_append,
          List.nil_append, String.toList] at hitems ⊢
        simp [hitems]
    | cons r₂ items'' =>
      simp only [List.map_cons, joinSep, dumpObj,
        List.cons_append, List.append_assoc, List.singleton_append,
        List.nil_append] at hitems ⊢
      simp [hitems]

/-- Witness for scrapePage_inbounds_iff at a concrete page with a partial
final chunk. -/
theorem scrapePage_inbounds_iff_witness :
    0 < (["x", "y"] : List String).length ∧
    ((scrapePage ["x", "y"] ⟨["a", "b", "c"], ["n1", "n2"], ["p1", "p2"]⟩).isSome = true ↔
      (((⟨["a", "b", "c"], ["n1", "n2"], ["p1", "p2"]⟩ : PageData).values.length +
          (["x", "y"] : List String).length - 1) / (["x", "y"] : List String).length ≤
        (⟨["a", "b", "c"], ["n1", "n2"], ["p1", "p2"]⟩ : PageData).names.length ∧
       ((⟨["a", "b", "c"], ["n1", "n2"], ["p1", "p2"]⟩ : PageData).values.length +
          (["x", "y"] : List String).length - 1) / (["x", "y"] : List String).length ≤
        (⟨["a", "b", "c"], ["n1", "n2"], ["p1", "p2"]⟩ : PageData).prices.length)) :=
  ⟨by decide,
    scrapePage_inbounds_iff ["x", "y"] ⟨["a", "b", "c"], ["n1", "n2"], ["p1", "p2"]⟩ (by decide)⟩

end PCScraper
